import Mathlib

/-!
Verification of the host-authoritative replication core of `reactome-sim`:
the method-dispatch metadata registry (`src/network/decorators.ts`), the
message bus (`NetBus`), and the replicated-state component (`NetComponent`
with `stateChannel` / `syncState` / `_applyStatePatch`).

The embedding is shallow: JSON-shaped state is the inductive `Json`,
JavaScript objects used as string-keyed records are association lists in
insertion order (matching both `Object.assign` field order and `Map`
insertion order), and the stateful methods are pure state-passing
functions over explicit component / bus records.
-/

namespace ReactomeSim

mutual

/-- JSON-shaped runtime values (plus `undef` for JavaScript `undefined`,
which can appear when a field is read off a malformed wire message).
Objects are field lists in insertion order, exactly the order
`JSON.stringify` serializes, so structural equality of `Json` values
coincides with equality of their serializations. `JsonList` and
`JsonFields` are the array-element and object-field spines. -/
inductive Json where
  | undef : Json
  | null : Json
  | bool (b : Bool) : Json
  | num (n : Int) : Json
  | str (s : String) : Json
  | arr (elems : JsonList) : Json
  | obj (fields : JsonFields) : Json

inductive JsonList where
  | nil : JsonList
  | cons (hd : Json) (tl : JsonList) : JsonList

inductive JsonFields where
  | nil : JsonFields
  | cons (key : String) (val : Json) (tl : JsonFields) : JsonFields

end

mutual

def Json.decEq : (a b : Json) → Decidable (a = b)
  | .undef, .undef => isTrue rfl
  | .null, .null => isTrue rfl
  | .bool a, .bool b =>
      match decEq a b with
      | isTrue h => isTrue (by rw [h])
      | isFalse h => isFalse (fun hh => h (by injection hh))
  | .num a, .num b =>
      match decEq a b with
      | isTrue h => isTrue (by rw [h])
      | isFalse h => isFalse (fun hh => h (by injection hh))
  | .str a, .str b =>
      match decEq a b with
      | isTrue h => isTrue (by rw [h])
      | isFalse h => isFalse (fun hh => h (by injection hh))
  | .arr a, .arr b =>
      match JsonList.decEq a b with
      | isTrue h => isTrue (by rw [h])
      | isFalse h => isFalse (fun hh => h (by injection hh))
  | .obj a, .obj b =>
      match JsonFields.decEq a b with
      | isTrue h => isTrue (by rw [h])
      | isFalse h => isFalse (fun hh => h (by injection hh))
  | .undef, .null | .undef, .bool _ | .undef, .num _ | .undef, .str _
  | .undef, .arr _ | .undef, .obj _
  | .null, .undef | .null, .bool _ | .null, .num _ | .null, .str _
  | .null, .arr _ | .null, .obj _
  | .bool _, .undef | .bool _, .null | .bool _, .num _ | .bool _, .str _
  | .bool _, .arr _ | .bool _, .obj _
  | .num _, .undef | .num _, .null | .num _, .bool _ | .num _, .str _
  | .num _, .arr _ | .num _, .obj _
  | .str _, .undef | .str _, .null | .str _, .bool _ | .str _, .num _
  | .str _, .arr _ | .str _, .obj _
  | .arr _, .undef | .arr _, .null | .arr _, .bool _ | .arr _, .num _
  | .arr _, .str _ | .arr _, .obj _
  | .obj _, .undef | .obj _, .null | .obj _, .bool _ | .obj _, .num _
  | .obj _, .str _ | .obj _, .arr _ => isFalse (by intro hh; cases hh)

def JsonList.decEq : (a b : JsonList) → Decidable (a = b)
  | .nil, .nil => isTrue rfl
  | .cons x xs, .cons y ys =>
      match Json.decEq x y, JsonList.decEq xs ys with
      | isTrue h1, isTrue h2 => isTrue (by rw [h1, h2])
      | isFalse h1, _ => isFalse (fun hh => h1 (by injection hh))
      | _, isFalse h2 => isFalse (fun hh => h2 (by injection hh))
  | .nil, .cons _ _ => isFalse (by intro hh; cases hh)
  | .cons _ _, .nil => isFalse (by intro hh; cases hh)

def JsonFields.decEq : (a b : JsonFields) → Decidable (a = b)
  | .nil, .nil => isTrue rfl
  | .cons k v tl, .cons k' v' tl' =>
      match decEq k k', Json.decEq v v', JsonFields.decEq tl tl' with
      | isTrue h1, isTrue h2, isTrue h3 => isTrue (by rw [h1, h2, h3])
      | isFalse h1, _, _ => isFalse (fun hh => h1 (by injection hh))
      | _, isFalse h2, _ => isFalse (fun hh => h2 (by injection hh))
      | _, _, isFalse h3 => isFalse (fun hh => h3 (by injection hh))
  | .nil, .cons _ _ _ => isFalse (by intro hh; cases hh)
  | .cons _ _ _, .nil => isFalse (by intro hh; cases hh)

end

instance : DecidableEq Json := Json.decEq

instance : DecidableEq JsonList := JsonList.decEq

instance : DecidableEq JsonFields := JsonFields.decEq

/-- A JavaScript object used as a record: field list in insertion order. -/
abbrev JObj := List (String × Json)

/-! ### Association-list primitives

`aget`/`aset`/`adel` model property read, property write and `delete` on a
JavaScript object (equivalently `Map.get`/`Map.set`/`Map.delete`): a write
to an existing key updates it in place, a write to a fresh key appends it,
so insertion order is preserved exactly as in JavaScript. -/

def aget {α β : Type} [DecidableEq α] : List (α × β) → α → Option β
  | [], _ => none
  | (k', v) :: rest, k => if k' = k then some v else aget rest k

def aset {α β : Type} [DecidableEq α] : List (α × β) → α → β → List (α × β)
  | [], k, v => [(k, v)]
  | (k', v') :: rest, k, v =>
      if k' = k then (k, v) :: rest else (k', v') :: aset rest k v

def adel {α β : Type} [DecidableEq α] : List (α × β) → α → List (α × β)
  | [], _ => []
  | (k', v') :: rest, k =>
      if k' = k then rest else (k', v') :: adel rest k

theorem aget_aset_self {α β : Type} [DecidableEq α] (l : List (α × β)) (k : α) (v : β) :
    aget (aset l k v) k = some v := by
  induction l with
  | nil => simp [aget, aset]
  | cons hd tl ih =>
      obtain ⟨k', v'⟩ := hd
      by_cases h : k' = k
      · simp [aget, aset, h]
      · simp [aget, aset, h, ih]

theorem aget_aset_ne {α β : Type} [DecidableEq α] (l : List (α × β)) (k k' : α) (v : β)
    (h : k' ≠ k) : aget (aset l k' v) k = aget l k := by
  induction l with
  | nil => simp [aget, aset, h]
  | cons hd tl ih =>
      obtain ⟨k₀, v₀⟩ := hd
      by_cases h0 : k₀ = k'
      · subst h0
        simp [aget, aset, h]
      · by_cases h1 : k₀ = k
        · simp [aget, aset, h0, h1, Ne.symm h]
        · simp [aget, aset, h0, h1, ih]

theorem aset_eq_of_aget {α β : Type} [DecidableEq α] (l : List (α × β)) (k : α) (v : β)
    (h : aget l k = some v) : aset l k v = l := by
  induction l with
  | nil => simp [aget] at h
  | cons hd tl ih =>
      obtain ⟨k₀, v₀⟩ := hd
      by_cases h0 : k₀ = k
      · subst h0
        simp [aget] at h
        simp [aset, h]
      · simp [aget, h0] at h
        simp [aset, h0, ih h]

/-! ### Shallow merge: `Object.assign(target, source)`

`_applyStatePatch` merges `patch.data` into the local channel object with
`Object.assign(obj, patch.data)`: every own field of the source is written
into the target in source order; fields not in the source are untouched;
no field of the target is ever removed. -/

/-- `Object.assign(target, source)` on string-keyed records: write each
field of `source`, in order, into `target`. -/
def objectAssign (target source : JObj) : JObj :=
  source.foldl (fun acc kv => aset acc kv.1 kv.2) target

theorem objectAssign_cons (t : JObj) (k : String) (v : Json) (rest : JObj) :
    objectAssign t ((k, v) :: rest) = objectAssign (aset t k v) rest := rfl

theorem aget_objectAssign_of_none (s : JObj) (k : String)
    (h : aget s k = none) :
    ∀ t : JObj, aget (objectAssign t s) k = aget t k := by
  induction s with
  | nil => intro t; rfl
  | cons hd rest ih =>
      obtain ⟨k₁, v₁⟩ := hd
      intro t
      by_cases hk : k₁ = k
      · simp [aget, hk] at h
      · simp only [aget, if_neg hk] at h
        rw [objectAssign_cons, ih h, aget_aset_ne _ _ _ _ hk]

theorem aget_eq_none_of_not_mem {α β : Type} [DecidableEq α] (l : List (α × β)) (k : α)
    (h : k ∉ l.map Prod.fst) : aget l k = none := by
  induction l with
  | nil => rfl
  | cons hd tl ih =>
      obtain ⟨k₀, v₀⟩ := hd
      simp only [List.map_cons, List.mem_cons] at h
      push_neg at h
      have hne : k₀ ≠ k := fun hh => h.1 hh.symm
      simp only [aget, if_neg hne]
      exact ih h.2

theorem aget_objectAssign_of_some (s : JObj) (k : String) (v : Json)
    (hnd : (s.map Prod.fst).Nodup) (h : aget s k = some v) :
    ∀ t : JObj, aget (objectAssign t s) k = some v := by
  induction s with
  | nil => simp [aget] at h
  | cons hd rest ih =>
      obtain ⟨k₁, v₁⟩ := hd
      intro t
      simp only [List.map_cons, List.nodup_cons] at hnd
      rw [objectAssign_cons]
      by_cases hk : k₁ = k
      · subst hk
        simp only [aget, if_pos rfl] at h
        have hv : v₁ = v := by simpa using h
        have hrest : aget rest k₁ = none :=
          aget_eq_none_of_not_mem rest k₁ hnd.1
        rw [aget_objectAssign_of_none rest k₁ hrest, aget_aset_self, hv]
      · simp only [aget, if_neg hk] at h
        exact ih hnd.2 h _

theorem aget_objectAssign_isSome (s : JObj) (k : String) :
    ∀ t : JObj, (aget t k).isSome → (aget (objectAssign t s) k).isSome := by
  induction s with
  | nil => intro t ht; exact ht
  | cons hd rest ih =>
      obtain ⟨k₁, v₁⟩ := hd
      intro t ht
      rw [objectAssign_cons]
      apply ih
      by_cases hk : k₁ = k
      · subst hk
        rw [aget_aset_self]
        rfl
      · rw [aget_aset_ne _ _ _ _ hk]
        exact ht

/-! ### The replicated component: `NetComponent` (part_006)

State of one `NetComponent` instance: the per-channel live objects
(`__stateObjs`), the host-side send revisions (`__revSend`), the
receiver-side applied revisions (`__revRecv`) and the host-side last
serialized snapshots (`__lastSynced`). Snapshots are stored as the
structural `JObj` value: two `JSON.stringify` outputs are equal exactly
when the objects are structurally equal (same fields, same order). -/

structure NetComponent where
  isHost : Bool
  netAddress : String
  stateObjs : List (String × JObj)
  revSend : List (String × Nat)
  revRecv : List (String × Nat)
  lastSynced : List (String × JObj)
deriving DecidableEq

/-- A decoded state patch as handed to `_applyStatePatch`
(`{__chan, __rev, data}`). -/
structure StatePatch where
  chan : String
  rev : Nat
  data : JObj
deriving DecidableEq

/-- `NetComponent._applyStatePatch` (part_006, lines 216-227): drop the
patch if `__rev <= last`; otherwise record the new receive revision and,
when the channel object exists locally, `Object.assign` the patch data
into it and invoke the `onStatePatched` hook. The returned `Bool` records
whether the hook was invoked. -/
def applyStatePatch (c : NetComponent) (p : StatePatch) : NetComponent × Bool :=
  let last := (aget c.revRecv p.chan).getD 0
  if p.rev ≤ last then (c, false)
  else
    let c1 := { c with revRecv := aset c.revRecv p.chan p.rev }
    match aget c1.stateObjs p.chan with
    | some obj =>
        ({ c1 with stateObjs := aset c1.stateObjs p.chan (objectAssign obj p.data) },
         true)
    | none => (c1, false)

theorem applyStatePatch_of_le (c : NetComponent) (p : StatePatch)
    (h : p.rev ≤ (aget c.revRecv p.chan).getD 0) :
    applyStatePatch c p = (c, false) := by
  simp [applyStatePatch, h]

theorem applyStatePatch_of_gt_some (c : NetComponent) (p : StatePatch) (obj : JObj)
    (hrev : (aget c.revRecv p.chan).getD 0 < p.rev)
    (hobj : aget c.stateObjs p.chan = some obj) :
    applyStatePatch c p =
      ({ c with revRecv := aset c.revRecv p.chan p.rev,
                stateObjs := aset c.stateObjs p.chan (objectAssign obj p.data) },
       true) := by
  unfold applyStatePatch
  rw [if_neg (Nat.not_le.mpr hrev)]
  simp [hobj]

theorem applyStatePatch_of_gt_none (c : NetComponent) (p : StatePatch)
    (hrev : (aget c.revRecv p.chan).getD 0 < p.rev)
    (hobj : aget c.stateObjs p.chan = none) :
    applyStatePatch c p =
      ({ c with revRecv := aset c.revRecv p.chan p.rev }, false) := by
  unfold applyStatePatch
  rw [if_neg (Nat.not_le.mpr hrev)]
  simp [hobj]

/-- Claim C1: a patch whose `__rev` is at most the channel's current
receive revision leaves the component state (channel objects and
receive-revision map) completely unchanged and invokes no hook; applying
the same patch twice leaves the component identical to applying it once;
and a patch whose `__rev` is strictly greater than the current receive
revision is always applied (revision recorded; channel object merged when
present), even when intermediate revisions were never received. -/
theorem applyStatePatch_revision_idempotency (c : NetComponent) (p : StatePatch) :
    (p.rev ≤ (aget c.revRecv p.chan).getD 0 → applyStatePatch c p = (c, false))
    ∧ applyStatePatch (applyStatePatch c p).1 p = ((applyStatePatch c p).1, false)
    ∧ ((aget c.revRecv p.chan).getD 0 < p.rev →
        aget (applyStatePatch c p).1.revRecv p.chan = some p.rev
        ∧ ∀ obj, aget c.stateObjs p.chan = some obj →
            aget (applyStatePatch c p).1.stateObjs p.chan =
              some (objectAssign obj p.data)) := by
  refine ⟨applyStatePatch_of_le c p, ?_, ?_⟩
  · by_cases hle : p.rev ≤ (aget c.revRecv p.chan).getD 0
    · rw [applyStatePatch_of_le c p hle]
      exact applyStatePatch_of_le c p hle
    · have hrev := Nat.not_le.mp hle
      rcases hobj : aget c.stateObjs p.chan with _ | obj
      · rw [applyStatePatch_of_gt_none c p hrev hobj]
        apply applyStatePatch_of_le
        simp [aget_aset_self]
      · rw [applyStatePatch_of_gt_some c p obj hrev hobj]
        apply applyStatePatch_of_le
        simp [aget_aset_self]
  · intro hrev
    rcases hobj : aget c.stateObjs p.chan with _ | obj
    · rw [applyStatePatch_of_gt_none c p hrev hobj]
      refine ⟨by simp [aget_aset_self], ?_⟩
      intro obj hsome
      simp [hobj] at hsome
    · rw [applyStatePatch_of_gt_some c p obj hrev hobj]
      refine ⟨by simp [aget_aset_self], ?_⟩
      intro obj' hsome
      have hoo : obj' = obj := (Option.some.inj hsome).symm
      subst hoo
      simp [aget_aset_self]

theorem applyStatePatch_revision_idempotency_witness :
    applyStatePatch
        ⟨false, "a", [("hp", [("value", Json.num 100)])], [], [("hp", 3)], []⟩
        ⟨"hp", 2, [("value", Json.num 80)]⟩ =
      (⟨false, "a", [("hp", [("value", Json.num 100)])], [], [("hp", 3)], []⟩, false)
    ∧ aget (applyStatePatch
        ⟨false, "a", [("hp", [("value", Json.num 100)])], [], [("hp", 3)], []⟩
        ⟨"hp", 7, [("value", Json.num 80)]⟩).1.revRecv "hp" = some 7 :=
  ⟨(applyStatePatch_revision_idempotency _ _).1 (by decide),
   ((applyStatePatch_revision_idempotency _ _).2.2 (by decide)).1⟩

/-- Claim C4: an applied state patch (revision strictly newer, channel
object present) is a shallow merge: every field present in `patch.data`
overwrites the corresponding field of the local channel object, every
field absent from `patch.data` is left untouched, and no key is ever
removed from the local channel object. -/
theorem applyStatePatch_shallow_merge (c : NetComponent) (p : StatePatch) (obj : JObj)
    (hrev : (aget c.revRecv p.chan).getD 0 < p.rev)
    (hobj : aget c.stateObjs p.chan = some obj)
    (hnd : (p.data.map Prod.fst).Nodup) :
    aget (applyStatePatch c p).1.stateObjs p.chan = some (objectAssign obj p.data)
    ∧ (∀ k v, aget p.data k = some v → aget (objectAssign obj p.data) k = some v)
    ∧ (∀ k, aget p.data k = none → aget (objectAssign obj p.data) k = aget obj k)
    ∧ (∀ k, (aget obj k).isSome → (aget (objectAssign obj p.data) k).isSome) := by
  refine ⟨?_, ?_, ?_, ?_⟩
  · rw [applyStatePatch_of_gt_some c p obj hrev hobj]
    simp [aget_aset_self]
  · intro k v hk
    exact aget_objectAssign_of_some p.data k v hnd hk obj
  · intro k hk
    exact aget_objectAssign_of_none p.data k hk obj
  · intro k hk
    exact aget_objectAssign_isSome p.data k obj hk

theorem applyStatePatch_shallow_merge_witness :
    aget (applyStatePatch
        ⟨false, "a", [("hp", [("value", Json.num 100), ("armor", Json.num 5)])],
         [], [], []⟩
        ⟨"hp", 1, [("value", Json.num 80)]⟩).1.stateObjs "hp" =
      some (objectAssign [("value", Json.num 100), ("armor", Json.num 5)]
        [("value", Json.num 80)])
    ∧ (aget (objectAssign [("value", Json.num 100), ("armor", Json.num 5)]
        [("value", Json.num 80)]) "armor").isSome :=
  ⟨(applyStatePatch_shallow_merge _ _ _ (by decide) (by decide) (by decide)).1,
   (applyStatePatch_shallow_merge
      ⟨false, "a", [("hp", [("value", Json.num 100), ("armor", Json.num 5)])],
       [], [], []⟩
      ⟨"hp", 1, [("value", Json.num 80)]⟩ _
      (by decide) (by decide) (by decide)).2.2.2 "armor" (by decide)⟩

/-- Claim C10: a patch with a strictly newer revision for a channel that
has no locally created state object still records `patch.__rev` as the new
receive revision while the patch data is discarded: no channel object is
created or modified and the hook is not invoked. -/
theorem applyStatePatch_missing_channel_drops_data (c : NetComponent) (p : StatePatch)
    (hobj : aget c.stateObjs p.chan = none)
    (hrev : (aget c.revRecv p.chan).getD 0 < p.rev) :
    (applyStatePatch c p).1.revRecv = aset c.revRecv p.chan p.rev
    ∧ aget (applyStatePatch c p).1.revRecv p.chan = some p.rev
    ∧ (applyStatePatch c p).1.stateObjs = c.stateObjs
    ∧ (applyStatePatch c p).2 = false := by
  rw [applyStatePatch_of_gt_none c p hrev hobj]
  exact ⟨rfl, aget_aset_self _ _ _, rfl, rfl⟩

theorem applyStatePatch_missing_channel_drops_data_witness :
    aget (applyStatePatch ⟨false, "a", [], [], [("w", 1)], []⟩
        ⟨"w", 5, [("x", Json.num 1)]⟩).1.revRecv "w" = some 5
    ∧ (applyStatePatch ⟨false, "a", [], [], [("w", 1)], []⟩
        ⟨"w", 5, [("x", Json.num 1)]⟩).1.stateObjs = []
    ∧ (applyStatePatch ⟨false, "a", [], [], [("w", 1)], []⟩
        ⟨"w", 5, [("x", Json.num 1)]⟩).2 = false :=
  ⟨(applyStatePatch_missing_channel_drops_data _ _ (by decide) (by decide)).2.1,
   (applyStatePatch_missing_channel_drops_data _ _ (by decide) (by decide)).2.2.1,
   (applyStatePatch_missing_channel_drops_data _ _ (by decide) (by decide)).2.2.2⟩

/-! ### The message bus: `NetBus` (part_005) and the dispatch stubs
installed by the decorators (src/network/decorators.ts)

Outbound traffic is modeled with the typed `Envelope`; inbound dispatch
(`handleEnvelope`) takes arbitrary wire data as `Json`, since a peer can
receive malformed envelopes. -/

/-- The three wire envelope shapes built by `NetBus` at send time. -/
inductive Envelope where
  | rpc (key method : String) (args : List Json)
  | multicast (key method : String) (args : List Json)
  | patch (key chan : String) (rev : Nat) (data : JObj)
deriving DecidableEq

/-- One `transport.send(dest, msg, reliable)` call. -/
structure Send where
  dest : Nat
  msg : Envelope
  reliable : Bool
deriving DecidableEq

/-- The bus as seen by the send/dispatch paths: the transport-provided
identity (`isHost`, `localId`, `hostId`, `peers()`) plus the set of bound
handler target keys (the domain of the `handlers` map). -/
structure NetBus where
  isHost : Bool
  localId : Nat
  hostId : Nat
  peerList : List Nat
  handlerKeys : List String
deriving DecidableEq

/-- `NetBus.makeTargetKey`: the routing key `address.method`. -/
def makeTargetKey (address method : String) : String :=
  address ++ "." ++ method

/-- `NetBus.sendPatch` (part_005, lines 75-81): one reliable send of the
patch envelope to every transport peer except the local peer. -/
def NetBus.sendPatch (bus : NetBus) (key chan : String) (rev : Nat)
    (data : JObj) : List Send :=
  (bus.peerList.filter (fun pid => pid ≠ bus.localId)).map
    (fun pid => ⟨pid, .patch key chan rev data, true⟩)

/-- `NetBus.sendMulticast` (part_005, lines 84-95): one reliable send of
the multicast envelope to every transport peer except the local peer (no
self-loopback). -/
def NetBus.sendMulticast (bus : NetBus) (address method : String)
    (args : List Json) : List Send :=
  (bus.peerList.filter (fun pid => pid ≠ bus.localId)).map
    (fun pid => ⟨pid, .multicast address method args, true⟩)

/-- Effects of one decorated-method call on the calling peer. -/
inductive CallEffect where
  | execBody (args : List Json)
  | send (s : Send)
  | invokeLocal (targetKey : String) (args : List Json)
deriving DecidableEq

/-- `NetBus.sendRpcToHost` (part_005, lines 97-105): on the host, invoke
the bound handler locally (when bound), bypassing the network; otherwise
send one reliable rpc envelope to the host peer only. -/
def NetBus.sendRpcToHost (bus : NetBus) (address method : String)
    (args : List Json) : List CallEffect :=
  if bus.isHost then
    if makeTargetKey address method ∈ bus.handlerKeys then
      [.invokeLocal (makeTargetKey address method) args]
    else []
  else [.send ⟨bus.hostId, .rpc address method args, true⟩]

/-- The dispatch stub installed by `@RunOnServer` (decorators.ts, lines
59-85). `original` is the undecorated method body; the result is the list
of effects of the call together with the value returned to the caller
(`none` models returning `undefined`). -/
def runOnServerStub (original : List Json → Json) (bus : Option NetBus)
    (netKey mname : String) (args : List Json) :
    List CallEffect × Option Json :=
  match bus with
  | none => ([.execBody args], some (original args))
  | some b =>
      if b.isHost then ([.execBody args], some (original args))
      else (b.sendRpcToHost netKey mname args, none)

/-- The dispatch stub installed by `@Multicast` (decorators.ts, lines
91-113): with a bus, first queue the multicast sends, then execute the
original body locally and return its value. -/
def multicastStub (original : List Json → Json) (bus : Option NetBus)
    (netAddress mname : String) (args : List Json) :
    List CallEffect × Option Json :=
  match bus with
  | none => ([.execBody args], some (original args))
  | some b =>
      ((b.sendMulticast netAddress mname args).map .send ++ [.execBody args],
       some (original args))

/-- Claim C2: an authority-only (`@RunOnServer`) method called with no bus
runs the original body directly; with a bus on the Authority peer it runs
the body locally with the same arguments and performs no transport send;
with a bus on a non-Authority peer it never runs the body locally, sends
exactly one reliable rpc envelope addressed to the host peer only, and
returns nothing. -/
theorem runOnServerStub_dispatch (original : List Json → Json) (b : NetBus)
    (netKey mname : String) (args : List Json) :
    runOnServerStub original none netKey mname args =
      ([.execBody args], some (original args))
    ∧ (b.isHost = true →
        runOnServerStub original (some b) netKey mname args =
          ([.execBody args], some (original args)))
    ∧ (b.isHost = false →
        runOnServerStub original (some b) netKey mname args =
          ([.send ⟨b.hostId, .rpc netKey mname args, true⟩], none)) := by
  refine ⟨rfl, ?_, ?_⟩
  · intro h
    simp [runOnServerStub, h]
  · intro h
    simp [runOnServerStub, NetBus.sendRpcToHost, h]

theorem runOnServerStub_dispatch_witness :
    runOnServerStub (fun _ => Json.null)
        (some ⟨false, 2, 0, [0, 1, 2], []⟩) "Cell" "heal" [Json.num 5] =
      ([.send ⟨0, .rpc "Cell" "heal" [Json.num 5], true⟩], none)
    ∧ runOnServerStub (fun _ => Json.null)
        (some ⟨true, 0, 0, [0, 1, 2], []⟩) "Cell" "heal" [Json.num 5] =
      ([.execBody [Json.num 5]], some Json.null) :=
  ⟨(runOnServerStub_dispatch (fun _ => Json.null) ⟨false, 2, 0, [0, 1, 2], []⟩
      "Cell" "heal" [Json.num 5]).2.2 rfl,
   (runOnServerStub_dispatch (fun _ => Json.null) ⟨true, 0, 0, [0, 1, 2], []⟩
      "Cell" "heal" [Json.num 5]).2.1 rfl⟩

/-- Events of the two-phase multicast trace: the synchronous call on the
local peer (queueing sends and running the body), then the asynchronous
delivery of each queued envelope on its destination peer. -/
inductive TraceEvent where
  | enqueue (dest : Nat) (msg : Envelope)
  | bodyRun (peer : Nat) (args : List Json)
deriving DecidableEq

/-- One `@Multicast` call on the local peer followed by the delivery of
its queued envelopes. In the single-threaded scheduling model the
transport only queues during the call; each destination's
`handleEnvelope` runs strictly after the call returns, and it invokes the
bound original exactly when a handler is bound there (`bound dest`). -/
def multicastSystemTrace (b : NetBus) (bound : Nat → Bool)
    (address mname : String) (args : List Json) : List TraceEvent :=
  ((b.sendMulticast address mname args).map fun s => .enqueue s.dest s.msg)
  ++ [.bodyRun b.localId args]
  ++ ((b.sendMulticast address mname args).filterMap fun s =>
        if bound s.dest then some (.bodyRun s.dest args) else none)

/-- Claim C7: a `@Multicast` method called with a bus executes the
original body on the calling peer exactly once, synchronously within the
call and before any other peer can observe the outbound message, and
sends the same method name and arguments as one reliable envelope to
every transport peer except the local peer (never to itself). -/
theorem multicastStub_local_first (original : List Json → Json) (b : NetBus)
    (bound : Nat → Bool) (address mname : String) (args : List Json) :
    multicastStub original (some b) address mname args =
      ((b.peerList.filter (fun pid => pid ≠ b.localId)).map
          (fun pid => .send ⟨pid, .multicast address mname args, true⟩)
        ++ [.execBody args],
       some (original args))
    ∧ (multicastStub original (some b) address mname args).1.count
        (.execBody args) = 1
    ∧ (∀ s : Send, .send s ∈ (multicastStub original (some b) address mname args).1 →
        s.dest ≠ b.localId ∧ s.msg = .multicast address mname args ∧ s.reliable = true)
    ∧ (∃ pre post, multicastSystemTrace b bound address mname args =
        pre ++ [.bodyRun b.localId args] ++ post
        ∧ ∀ e ∈ pre, ∀ p a, e ≠ TraceEvent.bodyRun p a) := by
  refine ⟨by simp [multicastStub, NetBus.sendMulticast], ?_, ?_, ?_⟩
  · have h0 : ((b.sendMulticast address mname args).map CallEffect.send).count
        (CallEffect.execBody args) = 0 := by
      rw [List.count_eq_zero]
      intro hmem
      rcases List.mem_map.mp hmem with ⟨s, _, hs⟩
      cases hs
    simp [multicastStub, List.count_append, h0]
  · intro s hs
    simp only [multicastStub, List.mem_append, List.mem_map, List.mem_singleton] at hs
    rcases hs with ⟨s', hs', heq⟩ | heq
    · cases heq
      simp only [NetBus.sendMulticast, List.mem_map, List.mem_filter] at hs'
      rcases hs' with ⟨pid, ⟨_, hpid⟩, rfl⟩
      exact ⟨by simpa using hpid, rfl, rfl⟩
    · cases heq
  · refine ⟨((b.sendMulticast address mname args).map fun s =>
        TraceEvent.enqueue s.dest s.msg),
      ((b.sendMulticast address mname args).filterMap fun s =>
        if bound s.dest then some (.bodyRun s.dest args) else none),
      by simp [multicastSystemTrace], ?_⟩
    intro e he p a
    rcases List.mem_map.mp he with ⟨s, _, rfl⟩
    intro hf
    cases hf

theorem multicastStub_local_first_witness :
    multicastStub (fun _ => Json.null) (some ⟨true, 0, 0, [0, 1], []⟩)
        "Cell" "emote" [Json.num 3] =
      ([.send ⟨1, .multicast "Cell" "emote" [Json.num 3], true⟩,
        .execBody [Json.num 3]], some Json.null)
    ∧ (multicastStub (fun _ => Json.null) (some ⟨true, 0, 0, [0, 1], []⟩)
        "Cell" "emote" [Json.num 3]).1.count (.execBody [Json.num 3]) = 1 :=
  ⟨((multicastStub_local_first (fun _ => Json.null) ⟨true, 0, 0, [0, 1], []⟩
      (fun _ => true) "Cell" "emote" [Json.num 3]).1).trans (by decide),
   (multicastStub_local_first (fun _ => Json.null) ⟨true, 0, 0, [0, 1], []⟩
      (fun _ => true) "Cell" "emote" [Json.num 3]).2.1⟩

/-! ### Inbound dispatch: `NetBus.handleEnvelope` (part_005, lines 111-148)

The inbound callback receives arbitrary deserialized wire data. The
dispatch path is total: a non-object datum, an object without a `t`
field, an unknown `t`, or an unbound target key is silently dropped. -/

/-- Property lookup on a wire object's field list. -/
def jfGet : JsonFields → String → Option Json
  | .nil, _ => none
  | .cons k v rest, key => if k = key then some v else jfGet rest key

mutual

/-- JavaScript template-literal string coercion, used by `makeTargetKey`
when the envelope's `key`/`method` fields are read off the wire. -/
def jsToString : Json → String
  | .undef => "undefined"
  | .null => "null"
  | .bool true => "true"
  | .bool false => "false"
  | .num n => toString n
  | .str s => s
  | .arr xs => jsListToString xs
  | .obj _ => "[object Object]"

/-- `Array.prototype.toString`: elements joined by commas, with `null`
and `undefined` elements rendered as empty strings. -/
def jsListToString : JsonList → String
  | .nil => ""
  | .cons x rest =>
      (match x with
       | .undef => ""
       | .null => ""
       | .bool b => jsToString (.bool b)
       | .num n => jsToString (.num n)
       | .str s => jsToString (.str s)
       | .arr xs => jsToString (.arr xs)
       | .obj fs => jsToString (.obj fs))
      ++ (match rest with
          | .nil => ""
          | .cons y ys => "," ++ jsListToString (.cons y ys))

end

/-- An inbound-dispatch effect: the bound handler at `targetKey` is
invoked with `payload` (for rpc/multicast the raw `msg.args` value; for a
patch, the one-element argument list holding the rebuilt
`{__chan, __rev, data}` object). -/
inductive DispatchEffect where
  | execHandler (targetKey : String) (payload : Json)
deriving DecidableEq

/-- `NetBus.handleEnvelope`: branch on the envelope kind; rpc executes
only on the host; patch routes to the address's `_applyStatePatch`
handler; every unmatched shape falls through and is dropped. -/
def handleEnvelope (bus : NetBus) (data : Json) : List DispatchEffect :=
  match data with
  | .obj fields =>
      match jfGet fields "t" with
      | none => []
      | some t =>
          if t = .str "rpc" then
            if bus.isHost = false then []
            else
              let targetKey := makeTargetKey
                (jsToString ((jfGet fields "key").getD .undef))
                (jsToString ((jfGet fields "method").getD .undef))
              if targetKey ∈ bus.handlerKeys then
                [.execHandler targetKey ((jfGet fields "args").getD .undef)]
              else []
          else if t = .str "patch" then
            let targetKey := makeTargetKey
              (jsToString ((jfGet fields "key").getD .undef)) "_applyStatePatch"
            if targetKey ∈ bus.handlerKeys then
              [.execHandler targetKey (.arr (.cons (.obj
                (.cons "__chan" ((jfGet fields "chan").getD .undef)
                  (.cons "__rev" ((jfGet fields "rev").getD .undef)
                    (.cons "data" ((jfGet fields "data").getD .undef) .nil))))
                .nil))]
            else []
          else if t = .str "multicast" then
            let targetKey := makeTargetKey
              (jsToString ((jfGet fields "key").getD .undef))
              (jsToString ((jfGet fields "method").getD .undef))
            if targetKey ∈ bus.handlerKeys then
              [.execHandler targetKey ((jfGet fields "args").getD .undef)]
            else []
          else []
  | _ => []

/-- Claim C8: an inbound rpc envelope is executed only on the Authority
(on a non-Authority peer it is dropped with no effect); multicast and
patch envelopes are executed if and only if a handler is bound for their
target key; and every other shape of wire data, malformed data included,
is silently dropped — the dispatch path is total and produces no
exception. -/
theorem handleEnvelope_dispatch (bus : NetBus) (data : Json) :
    (∀ fields, data = .obj fields → jfGet fields "t" = some (.str "rpc") →
        bus.isHost = false → handleEnvelope bus data = [])
    ∧ (∀ fields, data = .obj fields → jfGet fields "t" = some (.str "rpc") →
        bus.isHost = true →
        handleEnvelope bus data =
          (if makeTargetKey (jsToString ((jfGet fields "key").getD .undef))
                (jsToString ((jfGet fields "method").getD .undef))
              ∈ bus.handlerKeys
           then [.execHandler (makeTargetKey
                  (jsToString ((jfGet fields "key").getD .undef))
                  (jsToString ((jfGet fields "method").getD .undef)))
                  ((jfGet fields "args").getD .undef)]
           else []))
    ∧ (∀ fields, data = .obj fields → jfGet fields "t" = some (.str "multicast") →
        handleEnvelope bus data =
          (if makeTargetKey (jsToString ((jfGet fields "key").getD .undef))
                (jsToString ((jfGet fields "method").getD .undef))
              ∈ bus.handlerKeys
           then [.execHandler (makeTargetKey
                  (jsToString ((jfGet fields "key").getD .undef))
                  (jsToString ((jfGet fields "method").getD .undef)))
                  ((jfGet fields "args").getD .undef)]
           else []))
    ∧ (∀ fields, data = .obj fields → jfGet fields "t" = some (.str "patch") →
        handleEnvelope bus data =
          (if makeTargetKey (jsToString ((jfGet fields "key").getD .undef))
                "_applyStatePatch" ∈ bus.handlerKeys
           then [.execHandler (makeTargetKey
                  (jsToString ((jfGet fields "key").getD .undef))
                  "_applyStatePatch")
                  (.arr (.cons (.obj
                    (.cons "__chan" ((jfGet fields "chan").getD .undef)
                      (.cons "__rev" ((jfGet fields "rev").getD .undef)
                        (.cons "data" ((jfGet fields "data").getD .undef) .nil))))
                    .nil))]
           else []))
    ∧ (∀ fields, data = .obj fields → jfGet fields "t" = none →
        handleEnvelope bus data = [])
    ∧ (∀ fields, data = .obj fields → ∀ t, jfGet fields "t" = some t →
        t ≠ .str "rpc" → t ≠ .str "patch" → t ≠ .str "multicast" →
        handleEnvelope bus data = [])
    ∧ ((∀ fields, data ≠ .obj fields) → handleEnvelope bus data = []) := by
  refine ⟨?_, ?_, ?_, ?_, ?_, ?_, ?_⟩
  · intro fields hd ht hh
    subst hd
    simp [handleEnvelope, ht, hh]
  · intro fields hd ht hh
    subst hd
    simp [handleEnvelope, ht, hh]
  · intro fields hd ht
    subst hd
    simp [handleEnvelope, ht]
  · intro fields hd ht
    subst hd
    simp [handleEnvelope, ht]
  · intro fields hd ht
    subst hd
    simp [handleEnvelope, ht]
  · intro fields hd t ht h1 h2 h3
    subst hd
    simp [handleEnvelope, ht, h1, h2, h3]
  · intro hd
    cases data with
    | obj fields => exact absurd rfl (hd fields)
    | undef => rfl
    | null => rfl
    | bool b => rfl
    | num n => rfl
    | str s => rfl
    | arr xs => rfl

theorem handleEnvelope_dispatch_witness :
    handleEnvelope ⟨false, 1, 0, [0, 1], ["Cell.heal"]⟩
        (.obj (.cons "t" (.str "rpc") (.cons "key" (.str "Cell")
          (.cons "method" (.str "heal") .nil)))) = []
    ∧ handleEnvelope ⟨false, 1, 0, [0, 1], ["Cell.emote"]⟩
        (.obj (.cons "t" (.str "multicast") (.cons "key" (.str "Cell")
          (.cons "method" (.str "emote")
            (.cons "args" (.arr (.cons (.num 3) .nil)) .nil))))) =
      [.execHandler "Cell.emote" (.arr (.cons (.num 3) .nil))]
    ∧ handleEnvelope ⟨true, 0, 0, [0], []⟩ (.num 7) = [] := by
  refine ⟨?_, ?_, ?_⟩
  · exact (handleEnvelope_dispatch ⟨false, 1, 0, [0, 1], ["Cell.heal"]⟩ _).1 _ rfl
      (by decide) rfl
  · exact ((handleEnvelope_dispatch ⟨false, 1, 0, [0, 1], ["Cell.emote"]⟩ _).2.2.1 _
      rfl (by decide)).trans (by decide)
  · exact (handleEnvelope_dispatch ⟨true, 0, 0, [0], []⟩ (.num 7)).2.2.2.2.2.2
      (by intro fields h; cases h)

/-! ### Host-side synchronization: `NetComponent.syncState` (part_006,
lines 179-210) and the microtask-batched tick (lines 126-173)

The snapshot comparison `JSON.stringify(stateObj) === lastSynced` is
modeled as structural equality of the stored `JObj` (`Json` objects are
field lists in serialization order, see `Json`). The
`STATE_SYNC_COUNTERS` debug counter and its periodic `console.log` touch
no replication state and send no traffic; they are not modeled. -/

/-- `NetComponent.syncState`: host-only; no-op when the channel has no
state object or its serialization equals the last snapshot; otherwise
bump the send revision, record the snapshot and push one full-object
patch through `NetBus.sendPatch`. -/
def syncState (c : NetComponent) (bus : NetBus) (channel : String) :
    NetComponent × List Send :=
  if c.isHost = false then (c, [])
  else
    match aget c.stateObjs channel with
    | none => (c, [])
    | some stateObj =>
        if aget c.lastSynced channel = some stateObj then (c, [])
        else
          let nextRev := (aget c.revSend channel).getD 0 + 1
          ({ c with revSend := aset c.revSend channel nextRev,
                    lastSynced := aset c.lastSynced channel stateObj },
           bus.sendPatch c.netAddress channel nextRev stateObj)

theorem syncState_noop_of_synced (c : NetComponent) (bus : NetBus)
    (channel : String) (obj : JObj) (hhost : c.isHost = true)
    (hobj : aget c.stateObjs channel = some obj)
    (hs : aget c.lastSynced channel = some obj) :
    syncState c bus channel = (c, []) := by
  simp [syncState, hhost, hobj, hs]

theorem syncState_send_of_changed (c : NetComponent) (bus : NetBus)
    (channel : String) (obj : JObj) (hhost : c.isHost = true)
    (hobj : aget c.stateObjs channel = some obj)
    (hne : aget c.lastSynced channel ≠ some obj) :
    syncState c bus channel =
      ({ c with revSend := aset c.revSend channel
                  ((aget c.revSend channel).getD 0 + 1),
                lastSynced := aset c.lastSynced channel obj },
       bus.sendPatch c.netAddress channel
         ((aget c.revSend channel).getD 0 + 1) obj) := by
  simp [syncState, hhost, hobj, hne]

/-- Claim C3: on the Authority, `syncState` serializes the full channel
object and compares it with the last-sent snapshot: when equal it sends
nothing and leaves the send revision and snapshot unchanged; when
different it increments the channel's send revision by exactly one
(starting from 0, so the first patch carries revision 1), records the new
snapshot, and sends exactly one full-object patch to every peer except
the local peer. -/
theorem syncState_change_detection (c : NetComponent) (bus : NetBus)
    (channel : String) (obj : JObj)
    (hhost : c.isHost = true)
    (hobj : aget c.stateObjs channel = some obj) :
    (aget c.lastSynced channel = some obj → syncState c bus channel = (c, []))
    ∧ (aget c.lastSynced channel ≠ some obj →
        syncState c bus channel =
          ({ c with revSend := aset c.revSend channel
                      ((aget c.revSend channel).getD 0 + 1),
                    lastSynced := aset c.lastSynced channel obj },
           (bus.peerList.filter (fun pid => pid ≠ bus.localId)).map
             (fun pid => ⟨pid, .patch c.netAddress channel
                ((aget c.revSend channel).getD 0 + 1) obj, true⟩)))
    ∧ (aget c.revSend channel = none →
        (aget c.revSend channel).getD 0 + 1 = 1) := by
  refine ⟨syncState_noop_of_synced c bus channel obj hhost hobj, ?_, ?_⟩
  · intro hne
    rw [syncState_send_of_changed c bus channel obj hhost hobj hne]
    rfl
  · intro h0
    rw [h0]
    rfl

theorem syncState_change_detection_witness :
    syncState ⟨true, "a", [("hp", [("value", Json.num 80)])], [],
        [], [("hp", [("value", Json.num 80)])]⟩ ⟨true, 0, 0, [0, 1], []⟩ "hp" =
      (⟨true, "a", [("hp", [("value", Json.num 80)])], [],
        [], [("hp", [("value", Json.num 80)])]⟩, [])
    ∧ syncState ⟨true, "a", [("hp", [("value", Json.num 80)])], [], [], []⟩
        ⟨true, 0, 0, [0, 1], []⟩ "hp" =
      (⟨true, "a", [("hp", [("value", Json.num 80)])],
        [("hp", 1)], [], [("hp", [("value", Json.num 80)])]⟩,
       [⟨1, .patch "a" "hp" 1 [("value", Json.num 80)], true⟩]) :=
  ⟨(syncState_change_detection _ _ "hp" [("value", Json.num 80)]
      rfl (by decide)).1 (by decide),
   ((syncState_change_detection
      ⟨true, "a", [("hp", [("value", Json.num 80)])], [], [], []⟩
      ⟨true, 0, 0, [0, 1], []⟩ "hp" [("value", Json.num 80)]
      rfl (by decide)).2.1 (by decide)).trans (by decide)⟩

/-- A JavaScript primitive value: for these, the `set` trap's strict
equality check `currentValue === value` coincides with structural
equality. (Assignments of object-valued references compare by identity
and are outside the scope of this model.) -/
inductive Prim where
  | null : Prim
  | bool (b : Bool) : Prim
  | num (n : Int) : Prim
  | str (s : String) : Prim
deriving DecidableEq

def Prim.toJson : Prim → Json
  | .null => .null
  | .bool b => .bool b
  | .num n => .num n
  | .str s => .str s

/-- One top-level mutation performed through the channel's reactive
proxy within a tick. -/
inductive Mutation where
  | set (key : String) (val : Prim)
  | del (key : String)
deriving DecidableEq

/-- The reactive proxy's `set` / `deleteProperty` traps
(`createReactiveProxy`, part_006 lines 143-171): apply the change to the
target object and report whether a `syncState` microtask was queued. A
`set` whose value strictly equals the current one neither writes nor
queues; `deleteProperty` always queues. -/
def applyMutation (obj : JObj) : Mutation → JObj × Bool
  | .set k v => if aget obj k = some v.toJson then (obj, false)
                else (aset obj k v.toJson, true)
  | .del k => (adel obj k, true)

/-- All synchronous mutations of one tick, in order: the final object and
the number of queued `syncState` microtasks. -/
def runMutations (obj : JObj) : List Mutation → JObj × Nat
  | [] => (obj, 0)
  | m :: rest =>
      let step := applyMutation obj m
      let next := runMutations step.1 rest
      (next.1, (if step.2 then 1 else 0) + next.2)

/-- Drain the microtask queue: run `syncState` once per queued callback,
collecting all sends. -/
def runSyncPasses (c : NetComponent) (bus : NetBus) (channel : String) :
    Nat → NetComponent × List Send
  | 0 => (c, [])
  | n + 1 =>
      let first := syncState c bus channel
      let rest := runSyncPasses first.1 bus channel n
      (rest.1, first.2 ++ rest.2)

/-- One scheduling tick on the Authority: the synchronous mutations run
first (microtasks cannot interleave), then the queued synchronization
passes drain. -/
def runTick (c : NetComponent) (bus : NetBus) (channel : String)
    (muts : List Mutation) : NetComponent × List Send :=
  match aget c.stateObjs channel with
  | none => (c, [])
  | some obj =>
      let final := runMutations obj muts
      runSyncPasses { c with stateObjs := aset c.stateObjs channel final.1 }
        bus channel final.2

theorem runSyncPasses_of_noop (c : NetComponent) (bus : NetBus)
    (channel : String) (h : syncState c bus channel = (c, [])) :
    ∀ n, runSyncPasses c bus channel n = (c, []) := by
  intro n
  induction n with
  | zero => rfl
  | succ n ih => simp [runSyncPasses, h, ih]

theorem runSyncPasses_spec (c : NetComponent) (bus : NetBus) (channel : String)
    (obj : JObj) (hhost : c.isHost = true)
    (hobj : aget c.stateObjs channel = some obj) :
    ∀ q : Nat,
      runSyncPasses c bus channel q =
        if q = 0 ∨ aget c.lastSynced channel = some obj
        then (c, [])
        else
          ({ c with
              revSend := aset c.revSend channel
                ((aget c.revSend channel).getD 0 + 1),
              lastSynced := aset c.lastSynced channel obj },
           bus.sendPatch c.netAddress channel
             ((aget c.revSend channel).getD 0 + 1) obj) := by
  intro q
  match q with
  | 0 => simp [runSyncPasses]
  | n + 1 =>
      by_cases hs : aget c.lastSynced channel = some obj
      · rw [runSyncPasses_of_noop c bus channel
          (syncState_noop_of_synced c bus channel obj hhost hobj hs)]
        simp [hs]
      · have hsend := syncState_send_of_changed c bus channel obj hhost hobj hs
        have hnoop2 : syncState (syncState c bus channel).1 bus channel =
            ((syncState c bus channel).1, []) := by
          rw [hsend]
          exact syncState_noop_of_synced _ bus channel obj hhost hobj
            (aget_aset_self _ _ _)
        have hrest := runSyncPasses_of_noop _ bus channel hnoop2 n
        simp only [runSyncPasses, hrest]
        rw [hsend]
        simp [hs]

/-- Claim C9 (amended): N ≥ 1 synchronous mutations to a channel's proxy
within one tick on the Authority produce at most one outbound patch:
exactly one — carrying the final state after all mutations — when at
least one mutation queued a pass and the final serialized state differs
from the last-sent snapshot; zero patches otherwise. -/
theorem runTick_batching (c : NetComponent) (bus : NetBus) (channel : String)
    (obj : JObj) (muts : List Mutation)
    (hhost : c.isHost = true)
    (hobj : aget c.stateObjs channel = some obj) :
    runTick c bus channel muts =
      (if (runMutations obj muts).2 = 0
          ∨ aget c.lastSynced channel = some (runMutations obj muts).1
       then ({ c with stateObjs := aset c.stateObjs channel (runMutations obj muts).1 },
             [])
       else
         ({ c with stateObjs := aset c.stateObjs channel (runMutations obj muts).1,
                   revSend := aset c.revSend channel
                     ((aget c.revSend channel).getD 0 + 1),
                   lastSynced := aset c.lastSynced channel (runMutations obj muts).1 },
          bus.sendPatch c.netAddress channel
            ((aget c.revSend channel).getD 0 + 1) (runMutations obj muts).1)) := by
  unfold runTick
  rw [hobj]
  exact runSyncPasses_spec
    { c with stateObjs := aset c.stateObjs channel (runMutations obj muts).1 }
    bus channel (runMutations obj muts).1 hhost (aget_aset_self _ _ _)
    (runMutations obj muts).2

theorem runTick_batching_witness :
    runTick ⟨true, "a", [("c", [("x", Json.num 1)])], [], [], []⟩
        ⟨true, 0, 0, [0, 1], []⟩ "c"
        [Mutation.set "x" (.num 2), Mutation.set "x" (.num 3)] =
      (⟨true, "a", [("c", [("x", Json.num 3)])], [("c", 1)], [],
        [("c", [("x", Json.num 3)])]⟩,
       [⟨1, .patch "a" "c" 1 [("x", Json.num 3)], true⟩]) :=
  (runTick_batching ⟨true, "a", [("c", [("x", Json.num 1)])], [], [], []⟩
    ⟨true, 0, 0, [0, 1], []⟩ "c" [("x", Json.num 1)]
    [Mutation.set "x" (.num 2), Mutation.set "x" (.num 3)]
    rfl (by decide)).trans (by decide)

/-- Claim C9 counterexample: with channel `c` last synced as `x = 1`,
the two genuine mutations `x := 2; x := 1` within one tick queue two
synchronization passes yet produce zero outbound patches (the final
serialization equals the snapshot), refuting "exactly one outbound
patch" for N = 2. -/
theorem runTick_two_mutations_zero_patches :
    (runMutations [("x", Json.num 1)]
        [Mutation.set "x" (.num 2), Mutation.set "x" (.num 1)]).2 = 2
    ∧ (runTick ⟨true, "a", [("c", [("x", Json.num 1)])], [("c", 1)], [],
          [("c", [("x", Json.num 1)])]⟩ ⟨true, 0, 0, [0, 1], []⟩ "c"
        [Mutation.set "x" (.num 2), Mutation.set "x" (.num 1)]).2 = [] := by
  decide

/-! ### `NetComponent.stateChannel` (part_006, lines 108-121)

Object identity matters for the idempotency claim, so channel objects
live in an explicit heap: `__stateObjs` maps each channel name to a heap
reference, and each heap cell carries its fields and its sealed flag. The
view handed back to the caller records which cell it aliases and whether
it is wrapped in the reactive change-tracking proxy. -/

/-- What a `stateChannel` caller receives: the aliased heap cell, whether
the value is the reactive proxy, and whether the cell is sealed. -/
structure ChanView where
  ref : Nat
  isProxy : Bool
  sealedObj : Bool
deriving DecidableEq

/-- Channel-object storage of one component instance. -/
structure CompObjs where
  isHost : Bool
  chanRefs : List (String × Nat)
  heap : List (JObj × Bool)
deriving DecidableEq

/-- `NetComponent.stateChannel(channel, initial)`: when the channel
already exists, return the stored raw object (`__stateObjs.get(channel)`)
with no proxy wrapping; otherwise store a fresh shallow copy
`{...initial}`; a Replica seals and returns it, the Authority returns it
wrapped in the reactive proxy (`createReactiveProxy`). -/
def stateChannel (c : CompObjs) (channel : String) (initial : JObj) :
    CompObjs × ChanView :=
  match aget c.chanRefs channel with
  | some r => (c, ⟨r, false, (c.heap.getD r ([], false)).2⟩)
  | none =>
      let r := c.heap.length
      if c.isHost = false then
        ({ c with chanRefs := aset c.chanRefs channel r,
                  heap := c.heap ++ [(initial, true)] }, ⟨r, false, true⟩)
      else
        ({ c with chanRefs := aset c.chanRefs channel r,
                  heap := c.heap ++ [(initial, false)] }, ⟨r, true, false⟩)

/-- Claim C5 (code defect, evaluated): on the Authority the first
`stateChannel("hp", ...)` call returns the reactive proxy over the fresh
private copy, but a second call with the same name returns the same
underlying cell *without* the proxy — mutations through that value never
schedule a sync — contradicting the claimed idempotency ("same state
object, same tracking behavior") and the method's own doc comment
("Host: returns a reactive proxy that auto-syncs on mutations"). On a
Replica both calls return the same sealed, unproxied cell. -/
theorem stateChannel_second_call_unproxied :
    (stateChannel ⟨true, [], []⟩ "hp" [("value", Json.num 100)]).2 =
      ⟨0, true, false⟩
    ∧ (stateChannel (stateChannel ⟨true, [], []⟩ "hp" [("value", Json.num 100)]).1
        "hp" [("value", Json.num 100)]).2 = ⟨0, false, false⟩
    ∧ (stateChannel ⟨false, [], []⟩ "hp" [("value", Json.num 100)]).2 =
      ⟨0, false, true⟩
    ∧ (stateChannel (stateChannel ⟨false, [], []⟩ "hp" [("value", Json.num 100)]).1
        "hp" [("value", Json.num 100)]).2 = ⟨0, false, true⟩ := by
  decide

/-! ### Method-dispatch metadata (src/network/decorators.ts)

`getMetaArray(ctor)` reads `ctor[META_KEY] ?? []` and writes the result
back as an own property of `ctor`. Because a subclass constructor
inherits its superclass's static properties, the read walks the
constructor chain, and the write-back makes the subclass share (alias)
the ancestor's array object. The model therefore keeps an explicit store
of array objects (`arrays`, indexed by reference) and a map from class to
the array it holds as an *own* `META_KEY` property (`own`); classes are
identified by `Nat`. -/

inductive MethodKind where
  | runOnServer : MethodKind
  | multicast : MethodKind
deriving DecidableEq

/-- One `{kind, name, original}` descriptor; `original` identifies the
undecorated function. -/
structure MethodMeta where
  kind : MethodKind
  name : String
  original : Nat
deriving DecidableEq

/-- The `kind:name` de-duplication key. -/
def metaKey (m : MethodMeta) : MethodKind × String := (m.kind, m.name)

/-- The global decorator-metadata state. -/
structure MetaStore where
  arrays : List (List MethodMeta)
  own : List (Nat × Nat)
deriving DecidableEq

/-- Static property read `ctor[META_KEY]` along the constructor
inheritance chain (nearest own entry wins). -/
def findRef (st : MetaStore) : List Nat → Option Nat
  | [] => none
  | cls :: rest =>
      match aget st.own cls with
      | some r => some r
      | none => findRef st rest

/-- `getMetaArray(ctor)` (decorators.ts, lines 28-33): `existing =
ctor[META_KEY] ?? []` (inherited read), then `ctor[META_KEY] = existing`
(own write, aliasing an inherited array), returning the array. `cls` is
the constructor, `anc` its ancestor constructors nearest-first. -/
def getMetaArray (st : MetaStore) (cls : Nat) (anc : List Nat) :
    MetaStore × Nat :=
  match findRef st (cls :: anc) with
  | some r => ({ st with own := aset st.own cls r }, r)
  | none =>
      ({ arrays := st.arrays ++ [[]],
         own := aset st.own cls st.arrays.length },
       st.arrays.length)

/-- One decorator application (the registration step of `RunOnServer()`
or `Multicast()`): push `{kind, name, original}` onto the constructor's
metadata array. -/
def decorateMethod (st : MetaStore) (cls : Nat) (anc : List Nat)
    (m : MethodMeta) : MetaStore :=
  let res := getMetaArray st cls anc
  { res.1 with
      arrays := res.1.arrays.set res.2 (res.1.arrays.getD res.2 [] ++ [m]) }

/-- One class definition: its id, its ancestors (nearest first, excluding
`Object`), and its decorated methods in declaration order. -/
structure ClassDecl where
  cls : Nat
  anc : List Nat
  decorated : List MethodMeta
deriving DecidableEq

/-- Run the decorators of one class definition, in declaration order. -/
def decorateClass (st : MetaStore) (cd : ClassDecl) : MetaStore :=
  cd.decorated.foldl (fun s m => decorateMethod s cd.cls cd.anc m) st

/-- Evaluate a program: class definitions in order (a class is always
defined after its ancestors), each running its decorators. -/
def runProgram (prog : List ClassDecl) : MetaStore :=
  prog.foldl decorateClass ⟨[], []⟩

/-- The per-level read `(proto.constructor)[META_KEY] ?? []` inside
`collectMethodMeta`: an inherited static read from the given level's
class upward. -/
def levelArray (st : MetaStore) (chainFrom : List Nat) : List MethodMeta :=
  match findRef st chainFrom with
  | some r => st.arrays.getD r []
  | none => []

/-- The `metas.reverse()` / seen-set / `out.reverse()` loop of
`collectMethodMeta` (decorators.ts, lines 45-52). -/
def dedupLoop :
    List MethodMeta → List (MethodKind × String) → List MethodMeta →
      List MethodMeta
  | [], _, out => out
  | m :: rest, seen, out =>
      if metaKey m ∈ seen then dedupLoop rest seen out
      else dedupLoop rest (metaKey m :: seen) (out ++ [m])

/-- `collectMethodMeta(instance)` (decorators.ts, lines 36-53): walk the
prototype chain (given as the class chain `chain`, nearest first,
`Object` excluded), concatenate each level's metadata array, then
de-duplicate by `kind:name`. -/
def collectMethodMeta (st : MetaStore) (chain : List Nat) :
    List MethodMeta :=
  (dedupLoop ((chain.tails).flatMap (levelArray st)).reverse [] []).reverse

/-- Claim C6 counterexample: class 0 declares a decorated `foo`
(original 10); sibling subclasses 1 and 2 both extend class 0 and both
override `foo` with a decorator (originals 11, 12). Through
`getMetaArray`'s aliasing, all three classes share one metadata array,
so for an instance of class 1 the kept descriptor is class 2's override
(original 12) — not class 1's own (original 11), the most-derived
declaration on the instance's prototype chain. -/
theorem collectMethodMeta_sibling_override :
    collectMethodMeta (runProgram
        [⟨0, [], [⟨.runOnServer, "foo", 10⟩]⟩,
         ⟨1, [0], [⟨.runOnServer, "foo", 11⟩]⟩,
         ⟨2, [0], [⟨.runOnServer, "foo", 12⟩]⟩]) [1, 0] =
      [⟨.runOnServer, "foo", 12⟩]
    ∧ MethodMeta.mk .runOnServer "foo" 11 ∉
        collectMethodMeta (runProgram
          [⟨0, [], [⟨.runOnServer, "foo", 10⟩]⟩,
           ⟨1, [0], [⟨.runOnServer, "foo", 11⟩]⟩,
           ⟨2, [0], [⟨.runOnServer, "foo", 12⟩]⟩]) [1, 0] := by
  decide

/-! ### De-duplication machinery

`dedupLoop` over the reversed concatenation keeps, per `kind:name` key,
the most recently pushed descriptor: its result is characterized through
`lastOcc`, the last occurrence of a key in the un-reversed list. -/

/-- First element with the given key. -/
def firstWithKey (l : List MethodMeta) (k : MethodKind × String) :
    Option MethodMeta :=
  l.find? (fun m => decide (metaKey m = k))

/-- Last element with the given key. -/
def lastOcc (l : List MethodMeta) (k : MethodKind × String) :
    Option MethodMeta :=
  firstWithKey l.reverse k

theorem dedupLoop_keys_nodup :
    ∀ (l : List MethodMeta) (seen : List (MethodKind × String))
      (out : List MethodMeta),
      (out.map metaKey).Nodup → (∀ k ∈ out.map metaKey, k ∈ seen) →
      ((dedupLoop l seen out).map metaKey).Nodup := by
  intro l
  induction l with
  | nil => intro seen out h _; exact h
  | cons m rest ih =>
      intro seen out hnd hsub
      by_cases hm : metaKey m ∈ seen
      · simp only [dedupLoop, if_pos hm]
        exact ih seen out hnd hsub
      · simp only [dedupLoop, if_neg hm]
        apply ih (metaKey m :: seen) (out ++ [m])
        · rw [List.map_append]
          rw [List.nodup_append]
          refine ⟨hnd, by simp, ?_⟩
          intro k hk1 hk2
          simp only [List.map_cons, List.map_nil, List.mem_singleton] at hk2
          subst hk2
          exact hm (hsub _ hk1)
        · intro k hk
          rw [List.map_append] at hk
          rcases List.mem_append.mp hk with h1 | h2
          · exact List.mem_cons_of_mem _ (hsub _ h1)
          · simp only [List.map_cons, List.map_nil, List.mem_singleton] at h2
            subst h2
            exact List.mem_cons_self _ _

theorem dedupLoop_mem (m : MethodMeta) :
    ∀ (l : List MethodMeta) (seen : List (MethodKind × String))
      (out : List MethodMeta),
      m ∈ dedupLoop l seen out ↔
        m ∈ out ∨ (metaKey m ∉ seen ∧ firstWithKey l (metaKey m) = some m) := by
  intro l
  induction l with
  | nil =>
      intro seen out
      simp [dedupLoop, firstWithKey]
  | cons x rest ih =>
      intro seen out
      by_cases keq : metaKey x = metaKey m
      · by_cases hx : metaKey x ∈ seen
        · have hmseen : metaKey m ∈ seen := keq ▸ hx
          simp only [dedupLoop, if_pos hx]
          rw [ih seen out]
          constructor
          · rintro (h1 | ⟨hnot, _⟩)
            · exact Or.inl h1
            · exact absurd hmseen hnot
          · rintro (h1 | ⟨hnot, _⟩)
            · exact Or.inl h1
            · exact absurd hmseen hnot
        · simp only [dedupLoop, if_neg hx]
          rw [ih (metaKey x :: seen) (out ++ [x])]
          have hfirst : firstWithKey (x :: rest) (metaKey m) = some x := by
            unfold firstWithKey
            rw [List.find?_cons_of_pos]
            simp [keq]
          constructor
          · rintro (h1 | ⟨hnot, _⟩)
            · rcases List.mem_append.mp h1 with h2 | h3
              · exact Or.inl h2
              · have hxm : m = x := by simpa using h3
                subst hxm
                exact Or.inr ⟨fun hc => hx (keq ▸ hc), hfirst⟩
            · exact absurd (by simp [← keq]) hnot
          · rintro (h1 | ⟨hnot, hf⟩)
            · exact Or.inl (List.mem_append_left _ h1)
            · rw [hfirst] at hf
              have hxm : x = m := Option.some.inj hf
              exact Or.inl (List.mem_append_right _ (by simp [hxm]))
      · have hfirst : firstWithKey (x :: rest) (metaKey m) =
            firstWithKey rest (metaKey m) := by
          unfold firstWithKey
          rw [List.find?_cons_of_neg]
          simp [keq]
        have hxm : m ≠ x := fun h => keq (by rw [h])
        by_cases hx : metaKey x ∈ seen
        · simp only [dedupLoop, if_pos hx]
          rw [ih seen out, hfirst]
        · simp only [dedupLoop, if_neg hx]
          rw [ih (metaKey x :: seen) (out ++ [x]), hfirst]
          constructor
          · rintro (h1 | ⟨hnot, hf⟩)
            · rcases List.mem_append.mp h1 with h2 | h3
              · exact Or.inl h2
              · exact absurd (by simpa using h3) hxm
            · refine Or.inr ⟨fun hc => hnot (List.mem_cons_of_mem _ hc), hf⟩
          · rintro (h1 | ⟨hnot, hf⟩)
            · exact Or.inl (List.mem_append_left _ h1)
            · refine Or.inr ⟨?_, hf⟩
              intro hc
              rcases List.mem_cons.mp hc with h2 | h3
              · exact keq h2.symm
              · exact hnot h3

/-- The claim-facing membership characterization of `collectMethodMeta`:
an element is kept exactly when it is the last pushed descriptor with its
key in the concatenated level arrays. -/
theorem collectMethodMeta_mem_iff (st : MetaStore) (chain : List Nat)
    (m : MethodMeta) :
    m ∈ collectMethodMeta st chain ↔
      lastOcc ((chain.tails).flatMap (levelArray st)) (metaKey m) = some m := by
  unfold collectMethodMeta lastOcc
  rw [List.mem_reverse, dedupLoop_mem]
  simp

theorem firstWithKey_append_of_some (a b : List MethodMeta)
    (k : MethodKind × String) (m : MethodMeta)
    (h : firstWithKey a k = some m) :
    firstWithKey (a ++ b) k = some m := by
  unfold firstWithKey at h ⊢
  rw [List.find?_append, h]
  rfl

theorem firstWithKey_append_of_none (a b : List MethodMeta)
    (k : MethodKind × String) (h : firstWithKey a k = none) :
    firstWithKey (a ++ b) k = firstWithKey b k := by
  unfold firstWithKey at h ⊢
  rw [List.find?_append, h]
  rfl

theorem lastOcc_append_of_some (a b : List MethodMeta)
    (k : MethodKind × String) (m : MethodMeta) (h : lastOcc b k = some m) :
    lastOcc (a ++ b) k = some m := by
  unfold lastOcc at h ⊢
  rw [List.reverse_append]
  exact firstWithKey_append_of_some _ _ _ _ h

theorem lastOcc_append_of_none (a b : List MethodMeta)
    (k : MethodKind × String) (h : lastOcc b k = none) :
    lastOcc (a ++ b) k = lastOcc a k := by
  unfold lastOcc at h ⊢
  rw [List.reverse_append]
  exact firstWithKey_append_of_none _ _ _ h

theorem lastOcc_flatten_of_pieces (S : List MethodMeta) :
    ∀ (pieces : List (List MethodMeta)),
      (∀ p ∈ pieces, p = [] ∨ p = S) → S ∈ pieces →
      ∀ k, lastOcc pieces.flatten k = lastOcc S k := by
  intro pieces
  induction pieces with
  | nil => intro _ hS; cases hS
  | cons p ps ih =>
      intro hall hS k
      rw [List.flatten_cons]
      by_cases hSps : S ∈ ps
      · have hrec := ih (fun q hq => hall q (List.mem_cons_of_mem _ hq)) hSps k
        rcases hsk : lastOcc S k with _ | m
        · rw [lastOcc_append_of_none _ _ _ (hrec.trans hsk), ← hsk]
          rcases hall p (List.mem_cons_self _ _) with hp | hp
          · subst hp
            rw [hsk]
            rfl
          · subst hp
            rfl
        · exact lastOcc_append_of_some _ _ _ _ (hrec.trans hsk)
      · have hp : p = S := by
          rcases List.mem_cons.mp hS with h1 | h2
          · exact h1.symm
          · exact absurd h2 hSps
        have hnil : ∀ q ∈ ps, q = [] := by
          intro q hq
          rcases hall q (List.mem_cons_of_mem _ hq) with h1 | h1
          · exact h1
          · subst h1; exact absurd hq hSps
        have hfl : ps.flatten = [] := by
          rw [List.flatten_eq_nil_iff]
          exact hnil
        rw [hfl, List.append_nil, hp]

/-! ### Store characterization for a single inheritance chain -/

theorem findRef_eq_none (st : MetaStore) (chain : List Nat)
    (h : ∀ c ∈ chain, aget st.own c = none) : findRef st chain = none := by
  induction chain with
  | nil => rfl
  | cons c rest ih =>
      simp only [findRef]
      rw [h c (List.mem_cons_self _ _)]
      exact ih (fun c' hc' => h c' (List.mem_cons_of_mem _ hc'))

theorem findRef_all_zero (st : MetaStore)
    (h0 : ∀ c r, aget st.own c = some r → r = 0) :
    ∀ chain : List Nat, findRef st chain = none ∨ findRef st chain = some 0 := by
  intro chain
  induction chain with
  | nil => exact Or.inl rfl
  | cons c rest ih =>
      simp only [findRef]
      rcases hc : aget st.own c with _ | r
      · exact ih
      · right
        rw [h0 c r hc]

theorem findRef_mem_some (st : MetaStore)
    (h0 : ∀ c r, aget st.own c = some r → r = 0) :
    ∀ (chain : List Nat) (c₀ : Nat), c₀ ∈ chain →
      (aget st.own c₀).isSome → findRef st chain = some 0 := by
  intro chain
  induction chain with
  | nil => intro c₀ h; cases h
  | cons c rest ih =>
      intro c₀ hc₀ hsome
      simp only [findRef]
      rcases hc : aget st.own c with _ | r
      · rcases List.mem_cons.mp hc₀ with h1 | h2
        · subst h1
          rw [hc] at hsome
          cases hsome
        · exact ih c₀ h2 hsome
      · rw [h0 c r hc]

theorem decorateMethods_fold (n : Nat) (anc : List Nat) :
    ∀ (ms : List MethodMeta) (arrs : List (List MethodMeta))
      (ownl : List (Nat × Nat)) (S : List MethodMeta),
      arrs = [S] → aget ownl n = some 0 →
      ms.foldl (fun s m => decorateMethod s n anc m) ⟨arrs, ownl⟩ =
        ⟨[S ++ ms], ownl⟩ := by
  intro ms
  induction ms with
  | nil =>
      intro arrs ownl S harr hown
      subst harr
      simp
  | cons m rest ih =>
      intro arrs ownl S harr hown
      subst harr
      have hfind : findRef ⟨[S], ownl⟩ (n :: anc) = some 0 := by
        simp only [findRef]
        rw [hown]
      have hstep : decorateMethod ⟨[S], ownl⟩ n anc m = ⟨[S ++ [m]], ownl⟩ := by
        simp only [decorateMethod, getMetaArray, hfind]
        rw [aset_eq_of_aget ownl n 0 hown]
        rfl
      rw [List.foldl_cons, hstep, ih [S ++ [m]] ownl (S ++ [m]) rfl hown]
      simp

/-- The class table of a single inheritance chain: class `i` extends
class `i-1`, and `ds[i]` lists class `i`'s decorated methods in
declaration order. -/
def chainProg (ds : List (List MethodMeta)) : List ClassDecl :=
  (List.range ds.length).map (fun i => ⟨i, (List.range i).reverse, ds.getD i []⟩)

/-- The prototype chain of an instance of the most-derived class of a
chain of `n` classes. -/
def instChain (n : Nat) : List Nat := (List.range n).reverse

theorem decorateClass_chain_step (st : MetaStore) (S : List MethodMeta)
    (n : Nat) (d : List MethodMeta)
    (hinv : (S = [] ∧ st = ⟨[], []⟩)
      ∨ (st.arrays = [S]
          ∧ (∀ c r, aget st.own c = some r → r = 0 ∧ c < n)
          ∧ (∃ c, c < n ∧ aget st.own c = some 0))) :
    (S ++ d = [] ∧ decorateClass st ⟨n, (List.range n).reverse, d⟩ = ⟨[], []⟩)
    ∨ ((decorateClass st ⟨n, (List.range n).reverse, d⟩).arrays = [S ++ d]
        ∧ (∀ c r, aget (decorateClass st ⟨n, (List.range n).reverse, d⟩).own c =
            some r → r = 0 ∧ c < n + 1)
        ∧ (∃ c, c < n + 1 ∧
            aget (decorateClass st ⟨n, (List.range n).reverse, d⟩).own c =
              some 0)) := by
  match d with
  | [] =>
      rcases hinv with ⟨hS, hst⟩ | ⟨harr, hbound, hex⟩
      · exact Or.inl ⟨by simp [hS], by simp [decorateClass, hst]⟩
      · refine Or.inr ⟨by simpa [decorateClass] using harr, ?_, ?_⟩
        · intro c r hc
          simp only [decorateClass, List.foldl_nil] at hc
          exact ⟨(hbound c r hc).1, Nat.lt_succ_of_lt (hbound c r hc).2⟩
        · obtain ⟨c, hcn, hc⟩ := hex
          exact ⟨c, Nat.lt_succ_of_lt hcn, by simpa [decorateClass] using hc⟩
  | m :: ms =>
      rcases hinv with ⟨hS, hst⟩ | ⟨harr, hbound, hex⟩
      · subst hS
        subst hst
        have hfind : findRef ⟨[], []⟩ (n :: (List.range n).reverse) = none :=
          findRef_eq_none _ _ (fun c _ => rfl)
        have hstep : decorateMethod ⟨[], []⟩ n (List.range n).reverse m =
            ⟨[[m]], [(n, 0)]⟩ := by
          simp [decorateMethod, getMetaArray, hfind, aset]
        have hown1 : aget ([(n, 0)] : List (Nat × Nat)) n = some 0 := by
          simp [aget]
        refine Or.inr ⟨?_, ?_, ?_⟩
        · simp only [decorateClass, List.foldl_cons, hstep]
          rw [decorateMethods_fold n _ ms [[m]] [(n, 0)] [m] rfl hown1]
          simp
        · intro c r hc
          simp only [decorateClass, List.foldl_cons, hstep] at hc
          rw [decorateMethods_fold n _ ms [[m]] [(n, 0)] [m] rfl hown1] at hc
          simp only [aget] at hc
          by_cases hcn : n = c
          · subst hcn
            simp at hc
            exact ⟨hc.symm, Nat.lt_succ_self _⟩
          · simp [hcn, aget] at hc
        · refine ⟨n, Nat.lt_succ_self _, ?_⟩
          simp only [decorateClass, List.foldl_cons, hstep]
          rw [decorateMethods_fold n _ ms [[m]] [(n, 0)] [m] rfl hown1]
          exact hown1
      · obtain ⟨arrs, ownl⟩ := st
        simp only at harr
        subst harr
        have hn_none : aget ownl n = none := by
          rcases hget : aget ownl n with _ | r
          · rfl
          · exact absurd (hbound n r hget).2 (lt_irrefl n)
        obtain ⟨c₀, hc₀n, hc₀⟩ := hex
        have hfind : findRef ⟨[S], ownl⟩ (n :: (List.range n).reverse) =
            some 0 := by
          simp only [findRef]
          rw [hn_none]
          exact findRef_mem_some ⟨[S], ownl⟩
            (fun c r hc => (hbound c r hc).1) _ c₀
            (by simp [hc₀n]) (by simp [hc₀])
        have hstep : decorateMethod ⟨[S], ownl⟩ n (List.range n).reverse m =
            ⟨[S ++ [m]], aset ownl n 0⟩ := by
          simp [decorateMethod, getMetaArray, hfind]
        have hown1 : aget (aset ownl n 0) n = some 0 := aget_aset_self _ _ _
        refine Or.inr ⟨?_, ?_, ?_⟩
        · simp only [decorateClass, List.foldl_cons, hstep]
          rw [decorateMethods_fold n _ ms [S ++ [m]] (aset ownl n 0)
            (S ++ [m]) rfl hown1]
          simp
        · intro c r hc
          simp only [decorateClass, List.foldl_cons, hstep] at hc
          rw [decorateMethods_fold n _ ms [S ++ [m]] (aset ownl n 0)
            (S ++ [m]) rfl hown1] at hc
          simp only at hc
          by_cases hcn : n = c
          · subst hcn
            rw [aget_aset_self] at hc
            exact ⟨(Option.some.inj hc).symm, Nat.lt_succ_self _⟩
          · rw [aget_aset_ne _ _ _ _ hcn] at hc
            exact ⟨(hbound c r hc).1, Nat.lt_succ_of_lt (hbound c r hc).2⟩
        · refine ⟨n, Nat.lt_succ_self _, ?_⟩
          simp only [decorateClass, List.foldl_cons, hstep]
          rw [decorateMethods_fold n _ ms [S ++ [m]] (aset ownl n 0)
            (S ++ [m]) rfl hown1]
          exact hown1

theorem runProgram_chainProg (ds : List (List MethodMeta)) :
    (ds.flatten = [] ∧ runProgram (chainProg ds) = ⟨[], []⟩)
    ∨ ((runProgram (chainProg ds)).arrays = [ds.flatten]
        ∧ (∀ c r, aget (runProgram (chainProg ds)).own c = some r →
            r = 0 ∧ c < ds.length)
        ∧ (∃ c, c < ds.length ∧
            aget (runProgram (chainProg ds)).own c = some 0)) := by
  induction ds using List.reverseRecOn with
  | nil => exact Or.inl ⟨rfl, rfl⟩
  | append_singleton ds d ih =>
      have hchain : chainProg (ds ++ [d]) =
          chainProg ds ++ [⟨ds.length, (List.range ds.length).reverse, d⟩] := by
        unfold chainProg
        rw [List.length_append, List.length_singleton, List.range_succ,
          List.map_append]
        congr 1
        · apply List.map_congr_left
          intro i hi
          have hlt : i < ds.length := List.mem_range.mp hi
          rw [List.getD_append _ _ _ _ hlt]
        · simp
      have hrun : runProgram (chainProg (ds ++ [d])) =
          decorateClass (runProgram (chainProg ds))
            ⟨ds.length, (List.range ds.length).reverse, d⟩ := by
        rw [hchain]
        unfold runProgram
        rw [List.foldl_append]
        rfl
      rw [hrun, List.flatten_append, List.length_append]
      have hstep := decorateClass_chain_step (runProgram (chainProg ds))
        ds.flatten ds.length d ?_
      · simpa using hstep
      · rcases ih with ⟨h1, h2⟩ | h
        · exact Or.inl ⟨h1, h2⟩
        · exact Or.inr h

theorem collectMethodMeta_keys_nodup (st : MetaStore) (chain : List Nat) :
    ((collectMethodMeta st chain).map metaKey).Nodup := by
  unfold collectMethodMeta
  rw [List.map_reverse, List.nodup_reverse]
  exact dedupLoop_keys_nodup _ [] [] (by simp) (by simp)

theorem lastOcc_eq_none_iff (l : List MethodMeta) (k : MethodKind × String) :
    lastOcc l k = none ↔ ∀ m ∈ l, metaKey m ≠ k := by
  unfold lastOcc firstWithKey
  rw [List.find?_eq_none]
  constructor
  · intro h m hm
    simpa using h m (List.mem_reverse.mpr hm)
  · intro h m hm
    simpa using h m (List.mem_reverse.mp hm)

theorem lastOcc_mem_key (l : List MethodMeta) (k : MethodKind × String)
    (m : MethodMeta) (h : lastOcc l k = some m) : m ∈ l ∧ metaKey m = k := by
  unfold lastOcc firstWithKey at h
  refine ⟨List.mem_reverse.mp (List.mem_of_find?_eq_some h), ?_⟩
  simpa using List.find?_some h

theorem lastOcc_of_mem_nodup (d : List MethodMeta) (m : MethodMeta)
    (hnd : (d.map metaKey).Nodup) (hm : m ∈ d) :
    lastOcc d (metaKey m) = some m := by
  induction d with
  | nil => cases hm
  | cons x rest ih =>
      simp only [List.map_cons, List.nodup_cons] at hnd
      rcases List.mem_cons.mp hm with h1 | h2
      · subst h1
        unfold lastOcc
        rw [List.reverse_cons]
        have hnone : firstWithKey rest.reverse (metaKey m) = none := by
          unfold firstWithKey
          rw [List.find?_eq_none]
          intro y hy
          have hymem := List.mem_reverse.mp hy
          simp only [decide_eq_true_eq]
          intro hEq
          exact hnd.1 (hEq ▸ List.mem_map_of_mem metaKey hymem)
        rw [firstWithKey_append_of_none _ _ _ hnone]
        simp [firstWithKey, List.find?]
      · unfold lastOcc
        rw [List.reverse_cons]
        have hsome := ih hnd.2 h2
        unfold lastOcc at hsome
        exact firstWithKey_append_of_some _ _ _ _ hsome

theorem levelArray_chainProg (ds : List (List MethodMeta)) (T : List Nat) :
    levelArray (runProgram (chainProg ds)) T = []
    ∨ levelArray (runProgram (chainProg ds)) T = ds.flatten := by
  rcases runProgram_chainProg ds with ⟨_, hst⟩ | ⟨harr, hbound, _⟩
  · left
    unfold levelArray
    rw [hst]
    rw [findRef_eq_none ⟨[], []⟩ T (fun c _ => rfl)]
  · rcases findRef_all_zero _ (fun c r hc => (hbound c r hc).1) T with h | h
    · left
      unfold levelArray
      rw [h]
    · right
      unfold levelArray
      rw [h, harr]
      rfl

theorem levelArray_chainProg_top (ds : List (List MethodMeta))
    (hne : ds.flatten ≠ []) :
    levelArray (runProgram (chainProg ds)) (instChain ds.length) =
      ds.flatten := by
  rcases runProgram_chainProg ds with ⟨hfl, _⟩ | ⟨harr, hbound, c₀, hc₀n, hc₀⟩
  · exact absurd hfl hne
  · unfold levelArray
    rw [findRef_mem_some _ (fun c r hc => (hbound c r hc).1) _ c₀
      (by simp [instChain, List.mem_reverse, List.mem_range, hc₀n])
      (by simp [hc₀]), harr]
    rfl

theorem collect_chainProg_lastOcc (ds : List (List MethodMeta))
    (hne : ds.flatten ≠ []) (k : MethodKind × String) :
    lastOcc (((instChain ds.length).tails).flatMap
        (levelArray (runProgram (chainProg ds)))) k =
      lastOcc ds.flatten k := by
  rw [List.flatMap_def]
  apply lastOcc_flatten_of_pieces
  · intro p hp
    rcases List.mem_map.mp hp with ⟨T, _, rfl⟩
    exact levelArray_chainProg ds T
  · rw [List.mem_map]
    exact ⟨instChain ds.length,
      (List.mem_tails _ _).mpr (List.suffix_refl _),
      levelArray_chainProg_top ds hne⟩

theorem flatMap_levelArray_empty (ds : List (List MethodMeta))
    (hfl : ds.flatten = []) :
    ((instChain ds.length).tails).flatMap
      (levelArray (runProgram (chainProg ds))) = [] := by
  rw [List.flatMap_def, List.flatten_eq_nil_iff]
  intro p hp
  rcases List.mem_map.mp hp with ⟨T, _, rfl⟩
  rcases levelArray_chainProg ds T with h | h
  · exact h
  · rw [h, hfl]

theorem lastOcc_flatten_levels (ds : List (List MethodMeta))
    (hnd : ∀ l ∈ ds, (l.map metaKey).Nodup) (m : MethodMeta) :
    lastOcc ds.flatten (metaKey m) = some m ↔
      ∃ i, i < ds.length ∧ m ∈ ds.getD i []
        ∧ ∀ j, i < j → j < ds.length →
            ∀ m', m' ∈ ds.getD j [] → metaKey m' ≠ metaKey m := by
  induction ds using List.reverseRecOn with
  | nil =>
      constructor
      · intro h
        simp [lastOcc, firstWithKey] at h
      · rintro ⟨i, hi, _, _⟩
        simp at hi
  | append_singleton ds d ih =>
      have hnd' : ∀ l ∈ ds, (l.map metaKey).Nodup :=
        fun l hl => hnd l (List.mem_append_left _ hl)
      have hndd : (d.map metaKey).Nodup :=
        hnd d (List.mem_append_right _ (by simp))
      have hgetlt : ∀ i, i < ds.length → (ds ++ [d]).getD i [] = ds.getD i [] :=
        fun i hi => List.getD_append _ _ _ _ hi
      have hgetlen : (ds ++ [d]).getD ds.length [] = d := by
        rw [List.getD_append_right _ _ _ _ (le_refl _)]
        simp
      rw [List.flatten_append]
      simp only [List.flatten_cons, List.flatten_nil, List.append_nil]
      rcases hX : lastOcc d (metaKey m) with _ | m₀
      · rw [lastOcc_append_of_none _ _ _ hX, ih hnd']
        constructor
        · rintro ⟨i, hi, hmem, hlater⟩
          refine ⟨i, ?_, ?_, ?_⟩
          · rw [List.length_append, List.length_singleton]
            omega
          · rw [hgetlt i hi]
            exact hmem
          · intro j hij hjlen m' hm'
            rw [List.length_append, List.length_singleton] at hjlen
            by_cases hj : j < ds.length
            · rw [hgetlt j hj] at hm'
              exact hlater j hij hj m' hm'
            · have hjL : j = ds.length := by omega
              subst hjL
              rw [hgetlen] at hm'
              exact (lastOcc_eq_none_iff d (metaKey m)).mp hX m' hm'
        · rintro ⟨i, hi, hmem, hlater⟩
          rw [List.length_append, List.length_singleton] at hi
          have hiL : i ≠ ds.length := by
            intro h
            subst h
            rw [hgetlen] at hmem
            exact (lastOcc_eq_none_iff d (metaKey m)).mp hX m hmem rfl
          have hiL' : i < ds.length := by omega
          rw [hgetlt i hiL'] at hmem
          refine ⟨i, hiL', hmem, ?_⟩
          intro j hij hj m' hm'
          refine hlater j hij ?_ m' ?_
          · rw [List.length_append, List.length_singleton]
            omega
          · rw [hgetlt j hj]
            exact hm'
      · rw [lastOcc_append_of_some _ _ _ _ hX]
        obtain ⟨hm₀mem, hm₀key⟩ := lastOcc_mem_key d _ m₀ hX
        constructor
        · intro hEq
          have hm : m₀ = m := Option.some.inj hEq
          subst hm
          refine ⟨ds.length, ?_, ?_, ?_⟩
          · rw [List.length_append, List.length_singleton]
            omega
          · rw [hgetlen]
            exact hm₀mem
          · intro j hij hj _ _
            rw [List.length_append, List.length_singleton] at hj
            exact absurd hij (by omega)
        · rintro ⟨i, hi, hmem, hlater⟩
          rw [List.length_append, List.length_singleton] at hi
          by_cases hiL : i = ds.length
          · subst hiL
            rw [hgetlen] at hmem
            have hlast := lastOcc_of_mem_nodup d m hndd hmem
            rw [hX] at hlast
            exact hlast
          · have hiL' : i < ds.length := by omega
            exact absurd hm₀key (hlater ds.length hiL'
              (by rw [List.length_append, List.length_singleton]; omega) m₀
              (by rw [hgetlen]; exact hm₀mem))

/-- Claim C6 (amended): `collectMethodMeta` always returns a descriptor
list in which each `(kind, name)` pair occurs at most once; and when the
decorated classes form a single inheritance chain (no sibling class
shares the inherited metadata array), a descriptor is kept exactly when
it is declared at some level and no more-derived level declares the same
`(kind, name)` — i.e. the kept descriptor is the most-derived one. (With
sibling decorated subclasses the write-back aliasing of `getMetaArray`
makes the kept descriptor the most recently defined one program-wide,
which can belong to a class outside the instance's prototype chain — see
the counterexample.) -/
theorem collectMethodMeta_dedup_most_derived (st0 : MetaStore)
    (chain0 : List Nat) (ds : List (List MethodMeta))
    (hnd : ∀ l ∈ ds, (l.map metaKey).Nodup) :
    ((collectMethodMeta st0 chain0).map metaKey).Nodup
    ∧ ∀ m : MethodMeta,
        m ∈ collectMethodMeta (runProgram (chainProg ds))
            (instChain ds.length) ↔
          ∃ i, i < ds.length ∧ m ∈ ds.getD i []
            ∧ ∀ j, i < j → j < ds.length →
                ∀ m', m' ∈ ds.getD j [] → metaKey m' ≠ metaKey m := by
  refine ⟨collectMethodMeta_keys_nodup st0 chain0, ?_⟩
  intro m
  rw [collectMethodMeta_mem_iff]
  by_cases hne : ds.flatten = []
  · rw [flatMap_levelArray_empty ds hne]
    constructor
    · intro h
      simp [lastOcc, firstWithKey] at h
    · rintro ⟨i, hi, hmem, _⟩
      have hempty : ds.getD i [] = [] := by
        rw [List.getD_eq_getElem ds [] hi]
        exact List.flatten_eq_nil_iff.mp hne _ (List.getElem_mem _)
      rw [hempty] at hmem
      cases hmem
  · rw [collect_chainProg_lastOcc ds hne]
    exact lastOcc_flatten_levels ds hnd m

theorem collectMethodMeta_dedup_most_derived_witness :
    MethodMeta.mk .runOnServer "foo" 2 ∈
      collectMethodMeta (runProgram (chainProg
        [[⟨.runOnServer, "foo", 1⟩], [⟨.runOnServer, "foo", 2⟩]]))
        (instChain 2) := by
  refine ((collectMethodMeta_dedup_most_derived ⟨[], []⟩ []
    [[⟨.runOnServer, "foo", 1⟩], [⟨.runOnServer, "foo", 2⟩]]
    (by decide)).2 _).mpr ?_
  refine ⟨1, by decide, by decide, ?_⟩
  intro j h1 h2
  simp only [List.length_cons, List.length_nil] at h2
  omega

end ReactomeSim
